/-
Verification of the recommendation core of `spotify/utils.py`:
`normalize_data`, `recommend`, `generate_noun_chunks` and `choose_name`.

Modelling conventions:
* Dataframes of audio features become `List (List ℚ)` (rows of the 12
  feature columns, in `FEATURE_NAMES` order); real-valued audio features
  are embedded as rationals.
* The catalog dataframe becomes `List Song` (columns `id`, `name`,
  `artists` — already parsed from its literal encoding — plus the 12
  feature columns).
* `random.randrange(lo, hi)` is modelled as drawing one value `r` from an
  abstract entropy stream (`List ℕ`) and returning `lo + r % (hi - lo)`;
  `random.choice` and `random.sample(…, k=2)` similarly consume entropy
  and select positions.  A run that exhausts its finite entropy stream
  while a retry loop is still going is reported as `RecResult.running`,
  so non-termination claims become "for every finite stream the result is
  `running`".
* Python exceptions are explicit: `Err.indexError` models `IndexError`.
  The remaining `Err` constructors are the error taxonomy named by the
  specification (`InsufficientCatalog`, `InsufficientPoolSize`,
  `NoNamingCandidates`); they are needed to state the specification's
  claims, and the theorems below settle whether the code can produce them.
-/
import Mathlib

set_option maxRecDepth 8000

namespace Spotify

/-- Rows of audio-feature values: the shallow embedding of a dataframe
restricted to the 12 `FEATURE_NAMES` columns. -/
abbrev Table := List (List ℚ)

/-- One catalog row: `id`, `name`, the parsed `artists` list and the 12
audio-feature values. -/
structure Song where
  id : String
  name : String
  artists : List String
  features : List ℚ
deriving DecidableEq

/-- Python-level failure outcomes.  `indexError` models `IndexError`; the
other three constructors are the distinct recoverable errors named by the
specification, included so that claims about them can be stated. -/
inductive Err where
  | indexError
  | insufficientCatalog
  | insufficientPoolSize
  | noNamingCandidates
deriving DecidableEq

/-- Outcome of running a randomized routine against a finite entropy
stream: a result, a raised error, or `running` when the stream was
exhausted while a retry loop was still going. -/
inductive RecResult (α : Type) where
  | ok : α → RecResult α
  | err : Err → RecResult α
  | running : RecResult α
deriving DecidableEq

/-! ### `normalize_data` (MinMaxScaler over the 12 feature columns) -/

/-- Minimum of a list of rationals (`0` for the empty list, which the code
never hits on a non-empty column). -/
def listMin : List ℚ → ℚ
  | [] => 0
  | x :: xs => xs.foldl min x

/-- Maximum of a list of rationals. -/
def listMax : List ℚ → ℚ
  | [] => 0
  | x :: xs => xs.foldl max x

/-- Values of column `j` of a table. -/
def colVals (t : Table) (j : ℕ) : List ℚ := t.map (fun r => r.getD j 0)

/-- Column minimum, as fitted by `MinMaxScaler` on column `j`. -/
def colMin (t : Table) (j : ℕ) : ℚ := listMin (colVals t j)

/-- Column maximum, as fitted by `MinMaxScaler` on column `j`. -/
def colMax (t : Table) (j : ℕ) : ℚ := listMax (colVals t j)

/-- `MinMaxScaler` transform of one value of column `j`: `(v - min)/(max - min)`,
with a zero-variance column mapped to `0` (sklearn replaces a zero range by `1`,
so every value of such a column becomes `v - min = 0`). -/
def normEntry (t : Table) (j : ℕ) (v : ℚ) : ℚ :=
  if colMax t j = colMin t j then 0
  else (v - colMin t j) / (colMax t j - colMin t j)

/-- Transform the entries of one row, `j0` being the index of the first
column of the suffix being processed. -/
def normRowAux (t : Table) (j0 : ℕ) : List ℚ → List ℚ
  | [] => []
  | v :: vs => normEntry t j0 v :: normRowAux t (j0 + 1) vs

/-- Transform one full row. -/
def normRow (t : Table) (r : List ℚ) : List ℚ := normRowAux t 0 r

/-- Embedding of `normalize_data`: `df[FEATURE_NAMES] = scaler.fit_transform(df[FEATURE_NAMES])`,
i.e. every feature column is rescaled by the min/max observed in `t` itself. -/
def normalize_data (t : Table) : Table := t.map (normRow t)

theorem normRowAux_length (t : Table) (j0 : ℕ) (r : List ℚ) :
    (normRowAux t j0 r).length = r.length := by
  induction r generalizing j0 with
  | nil => rfl
  | cons v vs ih => simp [normRowAux, ih]

theorem normRowAux_getD (t : Table) (r : List ℚ) :
    ∀ j0 j : ℕ, j < r.length →
      (normRowAux t j0 r).getD j 0 = normEntry t (j0 + j) (r.getD j 0) := by
  induction r with
  | nil => intro j0 j h; simp at h
  | cons v vs ih =>
    intro j0 j h
    cases j with
    | zero => simp [normRowAux]
    | succ j =>
      have hj : j < vs.length := by simpa using h
      have := ih (j0 + 1) j hj
      simp only [normRowAux, List.getD_cons_succ, this]
      ring_nf

theorem normRow_getD (t : Table) (r : List ℚ) (j : ℕ) (hj : j < r.length) :
    (normRow t r).getD j 0 = normEntry t j (r.getD j 0) := by
  have := normRowAux_getD t r 0 j hj
  simpa [normRow] using this

theorem normalize_data_getD (t : Table) (k : ℕ) (hk : k < t.length) :
    (normalize_data t).getD k [] = normRow t (t.getD k []) := by
  have hk' : k < (normalize_data t).length := by
    simpa [normalize_data] using hk
  rw [List.getD_eq_getElem _ _ hk', List.getD_eq_getElem _ _ hk]
  simp [normalize_data]

/-- C5: normalization rescales each of the 12 feature columns independently
using the min/max observed within the same table: in a non-constant column the
minimum maps to 0 and the maximum to 1, and in a constant column (min = max)
every value maps to 0, with no division by zero. -/
theorem normalize_data_minmax (t : Table) (k j : ℕ)
    (hlen : ∀ r ∈ t, r.length = 12) (hk : k < t.length) (hj : j < 12) :
    (colMin t j = colMax t j →
      ((normalize_data t).getD k []).getD j 0 = 0) ∧
    (colMin t j ≠ colMax t j →
      (((t.getD k []).getD j 0 = colMin t j →
          ((normalize_data t).getD k []).getD j 0 = 0) ∧
       ((t.getD k []).getD j 0 = colMax t j →
          ((normalize_data t).getD k []).getD j 0 = 1))) := by
  have hmem : t.getD k [] ∈ t := by
    rw [List.getD_eq_getElem _ _ hk]
    exact List.getElem_mem hk
  have hjr : j < (t.getD k []).length := by
    rw [hlen _ hmem]; exact hj
  have hval : ((normalize_data t).getD k []).getD j 0
      = normEntry t j ((t.getD k []).getD j 0) := by
    rw [normalize_data_getD t k hk, normRow_getD t _ j hjr]
  constructor
  · intro hconst
    rw [hval, normEntry, if_pos hconst.symm]
  · intro hne
    have hne' : colMax t j ≠ colMin t j := fun h => hne h.symm
    constructor
    · intro hmin
      rw [hval, normEntry, if_neg hne', hmin, sub_self, zero_div]
    · intro hmax
      rw [hval, normEntry, if_neg hne', hmax]
      exact div_self (sub_ne_zero.mpr hne')

/-- Concrete table exercising `normalize_data_minmax`: column 0 is
non-constant (min 0, max 12), the other 11 columns are constant. -/
def tableW : Table :=
  [[0, 1, 2, 3, 4, 5, 6, 7, 8, 9, 10, 11],
   [12, 1, 2, 3, 4, 5, 6, 7, 8, 9, 10, 11]]

theorem normalize_data_minmax_witness :
    ((∀ r ∈ tableW, r.length = 12) ∧ 0 < tableW.length ∧ 0 < 12) ∧
    ((colMin tableW 0 = colMax tableW 0 →
       ((normalize_data tableW).getD 0 []).getD 0 0 = 0) ∧
     (colMin tableW 0 ≠ colMax tableW 0 →
       (((tableW.getD 0 []).getD 0 0 = colMin tableW 0 →
           ((normalize_data tableW).getD 0 []).getD 0 0 = 0) ∧
        ((tableW.getD 0 []).getD 0 0 = colMax tableW 0 →
           ((normalize_data tableW).getD 0 []).getD 0 0 = 1)))) :=
  ⟨⟨by intro r hr; simp [tableW] at hr; rcases hr with h | h <;> simp [h],
    by simp [tableW], by decide⟩,
   normalize_data_minmax tableW 0 0
     (by intro r hr; simp [tableW] at hr; rcases hr with h | h <;> simp [h])
     (by simp [tableW]) (by decide)⟩

/-! ### `recommend`: ranking by distance to the user average, then the
good/bad random selection -/

/-- Per-column arithmetic mean of a table: `features_df.mean(axis=0)`. -/
def colMean (t : Table) (j : ℕ) : ℚ := (colVals t j).sum / t.length

/-- The user's average profile vector over the 12 feature columns. -/
def userAvg (t : Table) : List ℚ := (List.range 12).map (colMean t)

/-- Squared Euclidean distance between two feature rows.  `NearestNeighbors`
ranks by Euclidean distance; since `Real.sqrt` is monotone, sorting by the
squared distance produces exactly the same ranking, so the embedding works
with squared distances and stays inside `ℚ`. -/
def dist2 (u v : List ℚ) : ℚ := (List.zipWith (fun a b => (a - b) ^ 2) u v).sum

/-- Comparison used to rank catalog indices: strictly smaller distance first,
ties broken by ascending original index. -/
def rankRel (d : ℕ → ℚ) (i j : ℕ) : Prop := d i < d j ∨ (d i = d j ∧ i ≤ j)

instance (d : ℕ → ℚ) : DecidableRel (rankRel d) := fun i j => by
  unfold rankRel; infer_instance

/-- Embedding of `neigh.kneighbors(user_avg, return_distance=False).flatten()`
with `n_neighbors = len(data_df)`: the full list of catalog indices, sorted by
ascending distance of `samples[i]` to `u`, ties broken by ascending index. -/
def rankedOrder (u : List ℚ) (samples : List (List ℚ)) : List ℕ :=
  List.insertionSort (rankRel (fun i => dist2 u (samples.getD i [])))
    (List.range samples.length)

/-- Model of `random.randrange(lo, hi)`: one raw entropy value `r` mapped
into `[lo, hi)`. -/
def randrange (lo hi : ℤ) (r : ℕ) : ℤ := lo + (r : ℤ) % (hi - lo)

/-- The retry-on-duplicate draw loop of `recommend`:
`while len(random_indexes) < 10: index = random.randrange(lo, hi);
if index not in random_indexes: random_indexes.append(index)`.
Returns `none` when the entropy stream runs out first. -/
def drawLoop (lo hi : ℤ) : List ℕ → List ℤ → Option (List ℤ)
  | [], acc => if 10 ≤ acc.length then some acc else none
  | r :: rest, acc =>
    if 10 ≤ acc.length then some acc
    else
      let i := randrange lo hi r
      if i ∈ acc then drawLoop lo hi rest acc
      else drawLoop lo hi rest (acc ++ [i])

/-- Position denoted by a Python index `i` into a sequence of length `n`:
negative indices count from the end. -/
def posZ (n : ℕ) (i : ℤ) : ℤ := if i < 0 then i + n else i

/-- Python sequence indexing `xs[i]`, with negative indices counting from the
end; `none` models a raised `IndexError`. -/
def pyGet (xs : List α) (i : ℤ) : Option α :=
  if 0 ≤ posZ xs.length i then xs.get? (posZ xs.length i).toNat else none

/-- The comprehension `[ordered[index] for index in random_indexes]`; `none`
models the `IndexError` raised at the first out-of-bounds index. -/
def resolveAll (ordered : List ℕ) : List ℤ → Option (List ℕ)
  | [] => some []
  | i :: is =>
    match pyGet ordered i with
    | none => none
    | some r =>
      match resolveAll ordered is with
      | none => none
      | some rs => some (r :: rs)

/-- The comprehensions `[data_df.iloc[rec][...] for rec in recommendations]`:
row lookup for every selected index. -/
def songsAt (cat : List Song) : List ℕ → Option (List Song)
  | [] => some []
  | r :: rs =>
    match cat.get? r with
    | none => none
    | some s =>
      match songsAt cat rs with
      | none => none
      | some ss => some (s :: ss)

/-- The comprehension `[ast.literal_eval(data_df.iloc[rec]["artists"])[0] ...]`:
first listed artist of every selected song; `[0]` on an empty list raises
`IndexError`. -/
def primaryArtists : List Song → Option (List String)
  | [] => some []
  | s :: ss =>
    match s.artists.head? with
    | none => none
    | some a =>
      match primaryArtists ss with
      | none => none
      | some as => some (a :: as)

/-- Effect of `normalize_data(data_df)` on the catalog dataframe: the 12
feature columns are rescaled (fitted on the catalog's own columns), all other
columns (`id`, `name`, `artists`) are untouched. -/
def normalizeCatalog (cat : List Song) : List Song :=
  cat.map (fun s => { s with features := normRow (cat.map Song.features) s.features })

/-- Return value of a successful `recommend` call.  The Python function
returns the triple `(rec_names, rec_ids, rec_artists)`; the selected catalog
indices `recs` (the intermediate `recommendations` list) are recorded as well
so that properties about them can be stated. -/
structure RecOutput where
  names : List String
  ids : List String
  artists : List String
  recs : List ℕ
deriving DecidableEq

/-- Lower bound of `random.randrange` in `recommend`: `-300` in bad mode,
`0` in good mode. -/
def loOf (bad : Bool) : ℤ := if bad then -300 else 0

/-- Upper bound of `random.randrange` in `recommend`: `0` in bad mode,
`100` in good mode. -/
def hiOf (bad : Bool) : ℤ := if bad then 0 else 100

/-- Resolution of the drawn offsets against the ranked order, followed by the
name/id/artist lookups in the (normalized) catalog dataframe. -/
def selectPhase (ordered : List ℕ) (ncat : List Song) (offs : List ℤ) :
    RecResult RecOutput :=
  match resolveAll ordered offs with
  | none => RecResult.err Err.indexError
  | some recs =>
    match songsAt ncat recs with
    | none => RecResult.err Err.indexError
    | some rows =>
      match primaryArtists rows with
      | none => RecResult.err Err.indexError
      | some arts =>
        RecResult.ok
          { names := rows.map Song.name
            ids := rows.map Song.id
            artists := arts
            recs := recs }

/-- The ranking-and-selection part of `recommend`, operating on the already
normalized user table `nf` and catalog `ncat`. -/
def recommendCore (nf : Table) (ncat : List Song) (bad : Bool)
    (stream : List ℕ) : RecResult RecOutput :=
  match drawLoop (loOf bad) (hiOf bad) stream [] with
  | none => RecResult.running
  | some offs =>
    selectPhase (rankedOrder (userAvg nf) (ncat.map Song.features)) ncat offs

/-- Embedding of `recommend(features_df, data_df, bad)`.  The second
component is the caller-visible final value of the two dataframe arguments:
`recommend` normalizes both tables in place before ranking, so the caller's
copies end up normalized whatever the outcome of the selection. -/
def recommend (f : Table) (cat : List Song) (bad : Bool) (stream : List ℕ) :
    RecResult RecOutput × (Table × List Song) :=
  let nf := normalize_data f
  let ncat := normalizeCatalog cat
  (recommendCore nf ncat bad stream, (nf, ncat))

/-- Catalog row at index `r` (total version, used in statements where the
index is known to be in bounds). -/
def songAt (cat : List Song) (r : ℕ) : Song := cat.getD r ⟨"", "", [], []⟩

/-- The `RankedOrder` produced inside `recommend` for the given raw inputs. -/
def orderedOf (f : Table) (cat : List Song) : List ℕ :=
  rankedOrder (userAvg (normalize_data f)) ((normalizeCatalog cat).map Song.features)

/-- Squared distance of catalog row `i` (after normalization) to the
normalized user average, as used by the ranking. -/
def distTo (f : Table) (cat : List Song) (i : ℕ) : ℚ :=
  dist2 (userAvg (normalize_data f)) (((normalizeCatalog cat).map Song.features).getD i [])

theorem rankRel_isTotal (d : ℕ → ℚ) : IsTotal ℕ (rankRel d) := by
  constructor
  intro a b
  rcases lt_trichotomy (d a) (d b) with h | h | h
  · exact Or.inl (Or.inl h)
  · rcases Nat.le_total a b with hab | hba
    · exact Or.inl (Or.inr ⟨h, hab⟩)
    · exact Or.inr (Or.inr ⟨h.symm, hba⟩)
  · exact Or.inr (Or.inl h)

theorem rankRel_isTrans (d : ℕ → ℚ) : IsTrans ℕ (rankRel d) := by
  constructor
  intro a b c hab hbc
  rcases hab with h1 | ⟨e1, l1⟩
  · rcases hbc with h2 | ⟨e2, _⟩
    · exact Or.inl (h1.trans h2)
    · exact Or.inl (e2 ▸ h1)
  · rcases hbc with h2 | ⟨e2, l2⟩
    · exact Or.inl (e1 ▸ h2)
    · exact Or.inr ⟨e1.trans e2, l1.trans l2⟩

theorem rankedOrder_perm (u : List ℚ) (samples : List (List ℚ)) :
    (rankedOrder u samples).Perm (List.range samples.length) :=
  List.perm_insertionSort _ _

theorem rankedOrder_sorted (u : List ℚ) (samples : List (List ℚ)) :
    (rankedOrder u samples).Pairwise
      (rankRel (fun i => dist2 u (samples.getD i []))) := by
  haveI := rankRel_isTotal (fun i => dist2 u (samples.getD i []))
  haveI := rankRel_isTrans (fun i => dist2 u (samples.getD i []))
  exact List.sorted_insertionSort _ _

theorem rankedOrder_nodup (u : List ℚ) (samples : List (List ℚ)) :
    (rankedOrder u samples).Nodup :=
  (rankedOrder_perm u samples).nodup_iff.mpr (List.nodup_range _)

theorem rankedOrder_length (u : List ℚ) (samples : List (List ℚ)) :
    (rankedOrder u samples).length = samples.length := by
  simpa using (rankedOrder_perm u samples).length_eq

theorem rankedOrder_mem_lt (u : List ℚ) (samples : List (List ℚ)) {i : ℕ}
    (h : i ∈ rankedOrder u samples) : i < samples.length := by
  have := (rankedOrder_perm u samples).mem_iff.mp h
  simpa using this

theorem normalizeCatalog_features_length (cat : List Song) :
    ((normalizeCatalog cat).map Song.features).length = cat.length := by
  simp [normalizeCatalog]

/-- C3: for every non-empty user table and catalog, the ranking step produces
a `RankedOrder` that is a permutation covering every catalog row exactly once,
sorted by ascending distance to the per-column mean of the (normalized) user
feature vectors, ties broken by ascending original catalog index.  (Sorting by
squared Euclidean distance `distTo` is the same ordering as sorting by
Euclidean distance, square root being monotone.) -/
theorem recommend_ranking (f : Table) (cat : List Song)
    (hf : f ≠ []) (hc : cat ≠ []) :
    (orderedOf f cat).Perm (List.range cat.length) ∧
    (orderedOf f cat).Pairwise (fun a b =>
      distTo f cat a < distTo f cat b ∨
      (distTo f cat a = distTo f cat b ∧ a < b)) := by
  constructor
  · have h := rankedOrder_perm (userAvg (normalize_data f))
      ((normalizeCatalog cat).map Song.features)
    rwa [normalizeCatalog_features_length] at h
  · have hs := rankedOrder_sorted (userAvg (normalize_data f))
      ((normalizeCatalog cat).map Song.features)
    have hd : (orderedOf f cat).Nodup := rankedOrder_nodup _ _
    have hne : (orderedOf f cat).Pairwise (fun a b => a ≠ b) := hd
    have := List.Pairwise.and (hs : (orderedOf f cat).Pairwise _) hne
    refine this.imp ?_
    rintro a b ⟨hrel, hab⟩
    rcases hrel with h | ⟨he, hle⟩
    · exact Or.inl h
    · exact Or.inr ⟨he, lt_of_le_of_ne hle hab⟩

/-- Words used to build the concrete witness catalog. -/
def wordsW : List String := ["a", "b", "c", "d", "e", "f", "g", "h", "i", "j"]

/-- Concrete catalog rows used by witnesses: distinct names/ids/artists and a
distinct value in feature column 0. -/
def wW (k : ℕ) : String := wordsW.getD k ""

def songW (k : ℕ) : Song :=
  ⟨wW k, wW k, [wW k], (k : ℚ) :: List.replicate 11 0⟩

def catW (n : ℕ) : List Song := (List.range n).map songW

def fW : Table := [List.replicate 12 (0 : ℚ)]

theorem recommend_ranking_witness :
    (fW ≠ [] ∧ catW 2 ≠ []) ∧
    ((orderedOf fW (catW 2)).Perm (List.range (catW 2).length) ∧
     (orderedOf fW (catW 2)).Pairwise (fun a b =>
       distTo fW (catW 2) a < distTo fW (catW 2) b ∨
       (distTo fW (catW 2) a = distTo fW (catW 2) b ∧ a < b))) :=
  ⟨⟨by simp [fW], by simp [catW]⟩,
   recommend_ranking fW (catW 2) (by simp [fW]) (by simp [catW])⟩

/-! ### Lemmas about the draw loop and the lookup phase -/

theorem randrange_bounds (lo hi : ℤ) (h : lo < hi) (r : ℕ) :
    lo ≤ randrange lo hi r ∧ randrange lo hi r < hi := by
  unfold randrange
  have h0 : 0 ≤ (r : ℤ) % (hi - lo) := Int.emod_nonneg _ (by omega)
  have h1 : (r : ℤ) % (hi - lo) < hi - lo := Int.emod_lt_of_pos _ (by omega)
  omega

theorem drawLoop_spec (lo hi : ℤ) (hlt : lo < hi) :
    ∀ (stream : List ℕ) (acc offs : List ℤ),
      drawLoop lo hi stream acc = some offs →
      acc.Nodup → (∀ o ∈ acc, lo ≤ o ∧ o < hi) → acc.length ≤ 10 →
      offs.Nodup ∧ (∀ o ∈ offs, lo ≤ o ∧ o < hi) ∧ offs.length = 10 := by
  intro stream
  induction stream with
  | nil =>
    intro acc offs h hnd hrange hle
    by_cases h10 : 10 ≤ acc.length
    · simp [drawLoop, h10] at h
      subst h
      exact ⟨hnd, hrange, le_antisymm hle h10⟩
    · simp [drawLoop, h10] at h
  | cons r rest ih =>
    intro acc offs h hnd hrange hle
    by_cases h10 : 10 ≤ acc.length
    · simp [drawLoop, h10] at h
      subst h
      exact ⟨hnd, hrange, le_antisymm hle h10⟩
    · simp only [drawLoop, if_neg h10] at h
      by_cases hmem : randrange lo hi r ∈ acc
      · simp only [if_pos hmem] at h
        exact ih acc offs h hnd hrange hle
      · simp only [if_neg hmem] at h
        refine ih (acc ++ [randrange lo hi r]) offs h ?_ ?_ ?_
        · simp [List.nodup_append, hnd, hmem]
        · intro o ho
          rcases List.mem_append.mp ho with ho | ho
          · exact hrange o ho
          · simp at ho
            subst ho
            exact randrange_bounds lo hi hlt r
        · have : acc.length < 10 := by omega
          simp [this]
          omega

theorem pyGet_mem {xs : List α} {i : ℤ} {a : α}
    (h : pyGet xs i = some a) : a ∈ xs := by
  unfold pyGet at h
  by_cases h0 : 0 ≤ posZ xs.length i
  · rw [if_pos h0] at h
    exact List.get?_mem h
  · rw [if_neg h0] at h
    exact absurd h (by simp)

theorem pyGet_isSome {xs : List α} {i : ℤ}
    (h0 : 0 ≤ posZ xs.length i) (hlt : posZ xs.length i < xs.length) :
    ∃ a, pyGet xs i = some a := by
  unfold pyGet
  rw [if_pos h0]
  have hn : (posZ xs.length i).toNat < xs.length := by omega
  rcases List.get?_eq_some.mpr ⟨hn, rfl⟩ with h
  exact ⟨_, h⟩

theorem pyGet_pos {xs : List α} {i : ℤ} {a : α}
    (h : pyGet xs i = some a) :
    0 ≤ posZ xs.length i ∧ (posZ xs.length i).toNat < xs.length ∧
      xs.get? (posZ xs.length i).toNat = some a := by
  unfold pyGet at h
  by_cases h0 : 0 ≤ posZ xs.length i
  · rw [if_pos h0] at h
    have := List.get?_eq_some.mp h
    exact ⟨h0, this.1, h⟩
  · rw [if_neg h0] at h
    exact absurd h (by simp)

theorem pyGet_inj {xs : List ℕ} (hnd : xs.Nodup) {i j : ℤ} {a : ℕ}
    (hsign : (i < 0 ∧ j < 0) ∨ (0 ≤ i ∧ 0 ≤ j))
    (hi : pyGet xs i = some a) (hj : pyGet xs j = some a) : i = j := by
  obtain ⟨hi0, hilt, hig⟩ := pyGet_pos hi
  obtain ⟨hj0, hjlt, hjg⟩ := pyGet_pos hj
  have hpq : (posZ xs.length i).toNat = (posZ xs.length j).toNat :=
    List.get?_inj hilt hnd (hig.trans hjg.symm)
  unfold posZ at hi0 hj0 hpq
  rcases hsign with ⟨hni, hnj⟩ | ⟨hpi, hpj⟩
  · rw [if_pos hni] at hi0 hpq
    rw [if_pos hnj] at hj0 hpq
    omega
  · rw [if_neg (by omega : ¬ i < 0)] at hi0 hpq
    rw [if_neg (by omega : ¬ j < 0)] at hj0 hpq
    omega

theorem resolveAll_rel {ordered : List ℕ} :
    ∀ {offs : List ℤ} {recs : List ℕ},
      resolveAll ordered offs = some recs →
      List.Forall₂ (fun o r => pyGet ordered o = some r) offs recs := by
  intro offs
  induction offs with
  | nil =>
    intro recs h
    simp [resolveAll] at h
    subst h
    exact List.Forall₂.nil
  | cons i is ih =>
    intro recs h
    unfold resolveAll at h
    cases hg : pyGet ordered i with
    | none => rw [hg] at h; exact absurd h (by simp)
    | some r =>
      rw [hg] at h
      cases hrec : resolveAll ordered is with
      | none => rw [hrec] at h; exact absurd h (by simp)
      | some rs =>
        rw [hrec] at h
        simp at h
        subst h
        exact List.Forall₂.cons hg (ih hrec)

theorem resolveAll_some_of_forall {ordered : List ℕ} :
    ∀ {offs : List ℤ},
      (∀ o ∈ offs, ∃ r, pyGet ordered o = some r) →
      ∃ recs, resolveAll ordered offs = some recs := by
  intro offs
  induction offs with
  | nil => intro _; exact ⟨[], rfl⟩
  | cons i is ih =>
    intro h
    obtain ⟨r, hr⟩ := h i (by simp)
    obtain ⟨rs, hrs⟩ := ih (fun o ho => h o (by simp [ho]))
    exact ⟨r :: rs, by unfold resolveAll; rw [hr, hrs]⟩

theorem songsAt_some_of_forall {cat : List Song} :
    ∀ {recs : List ℕ},
      (∀ r ∈ recs, r < cat.length) →
      songsAt cat recs = some (recs.map (songAt cat)) := by
  intro recs
  induction recs with
  | nil => intro _; rfl
  | cons r rs ih =>
    intro h
    have hr : r < cat.length := h r (by simp)
    have hg : cat.get? r = some (songAt cat r) := by
      rw [songAt, List.getD_eq_getElem _ _ hr]
      exact List.get?_eq_some.mpr ⟨hr, rfl⟩
    unfold songsAt
    rw [hg, ih (fun x hx => h x (by simp [hx]))]
    rfl

theorem songsAt_bounds {cat : List Song} :
    ∀ {recs : List ℕ} {rows : List Song},
      songsAt cat recs = some rows →
      (∀ r ∈ recs, r < cat.length) ∧ rows = recs.map (songAt cat) := by
  intro recs
  induction recs with
  | nil =>
    intro rows h
    simp [songsAt] at h
    subst h
    exact ⟨by simp, rfl⟩
  | cons r rs ih =>
    intro rows h
    unfold songsAt at h
    cases hg : cat.get? r with
    | none => rw [hg] at h; exact absurd h (by simp)
    | some s =>
      rw [hg] at h
      cases hrec : songsAt cat rs with
      | none => rw [hrec] at h; exact absurd h (by simp)
      | some ss =>
        rw [hrec] at h
        simp at h
        obtain ⟨hlt, hss⟩ := ih hrec
        obtain ⟨hs, hrows⟩ := List.get?_eq_some.mp hg
        refine ⟨?_, ?_⟩
        · intro x hx
          rcases List.mem_cons.mp hx with hx | hx
          · omega
          · exact hlt x hx
        · subst h
          rw [hss]
          congr 1
          rw [songAt, List.getD_eq_getElem _ _ hs]
          exact hrows.symm

theorem primaryArtists_some_of_forall :
    ∀ {rows : List Song},
      (∀ s ∈ rows, s.artists ≠ []) →
      primaryArtists rows = some (rows.map (fun s => s.artists.headD "")) := by
  intro rows
  induction rows with
  | nil => intro _; rfl
  | cons s ss ih =>
    intro h
    have hs : s.artists ≠ [] := h s (by simp)
    obtain ⟨a, as, ha⟩ := List.exists_cons_of_ne_nil hs
    unfold primaryArtists
    rw [ha]
    simp only [List.head?_cons]
    rw [ih (fun x hx => h x (by simp [hx]))]
    simp [ha]

theorem primaryArtists_eq {rows : List Song} {arts : List String}
    (h : primaryArtists rows = some arts) :
    arts = rows.map (fun s => s.artists.headD "") ∧ ∀ s ∈ rows, s.artists ≠ [] := by
  induction rows generalizing arts with
  | nil =>
    simp [primaryArtists] at h
    subst h
    exact ⟨rfl, by simp⟩
  | cons s ss ih =>
    unfold primaryArtists at h
    cases hh : s.artists.head? with
    | none => rw [hh] at h; exact absurd h (by simp)
    | some a =>
      rw [hh] at h
      cases hrec : primaryArtists ss with
      | none => rw [hrec] at h; exact absurd h (by simp)
      | some as =>
        rw [hrec] at h
        simp at h
        obtain ⟨has, hne⟩ := ih hrec
        have hsne : s.artists ≠ [] := by
          intro hnil
          rw [hnil] at hh
          simp at hh
        subst h
        constructor
        · rw [has]
          congr 1
          cases hart : s.artists with
          | nil => exact absurd hart hsne
          | cons b bs =>
            rw [hart] at hh
            simp at hh
            show a = s.artists.headD ""
            rw [hart]
            simpa using hh.symm
        · intro x hx
          rcases List.mem_cons.mp hx with hx | hx
          · subst hx; exact hsne
          · exact hne x hx

theorem drawLoop_start (bad : Bool) {stream : List ℕ} {offs : List ℤ}
    (h : drawLoop (loOf bad) (hiOf bad) stream [] = some offs) :
    offs.Nodup ∧ (∀ o ∈ offs, loOf bad ≤ o ∧ o < hiOf bad) ∧ offs.length = 10 := by
  have hlt : loOf bad < hiOf bad := by
    cases bad <;> simp [loOf, hiOf]
  exact drawLoop_spec _ _ hlt stream [] offs h (by simp) (by simp) (by simp)

theorem resolveAll_map {ordered : List ℕ} :
    ∀ {offs : List ℤ} {recs : List ℕ},
      resolveAll ordered offs = some recs →
      recs = offs.map (fun o => (pyGet ordered o).getD 0) ∧
        ∀ o ∈ offs, ∃ r, pyGet ordered o = some r := by
  intro offs
  induction offs with
  | nil =>
    intro recs h
    simp [resolveAll] at h
    subst h
    exact ⟨rfl, by simp⟩
  | cons i is ih =>
    intro recs h
    unfold resolveAll at h
    cases hg : pyGet ordered i with
    | none => rw [hg] at h; exact absurd h (by simp)
    | some r =>
      rw [hg] at h
      cases hrec : resolveAll ordered is with
      | none => rw [hrec] at h; exact absurd h (by simp)
      | some rs =>
        rw [hrec] at h
        simp at h
        obtain ⟨hmap, hsome⟩ := ih hrec
        subst h
        constructor
        · simp [hg, hmap]
        · intro o ho
          rcases List.mem_cons.mp ho with ho | ho
          · exact ⟨r, ho ▸ hg⟩
          · exact hsome o ho

theorem resolveAll_nodup {ordered : List ℕ} (hnd : ordered.Nodup)
    {offs : List ℤ} {recs : List ℕ}
    (h : resolveAll ordered offs = some recs) (hoffs : offs.Nodup)
    (hsign : (∀ o ∈ offs, o < 0) ∨ (∀ o ∈ offs, 0 ≤ o)) : recs.Nodup := by
  obtain ⟨hmap, hsome⟩ := resolveAll_map h
  rw [hmap]
  refine List.Nodup.map_on ?_ hoffs
  intro x hx y hy hxy
  obtain ⟨rx, hrx⟩ := hsome x hx
  obtain ⟨ry, hry⟩ := hsome y hy
  rw [hrx, hry] at hxy
  simp at hxy
  subst hxy
  refine pyGet_inj hnd ?_ hrx hry
  rcases hsign with hs | hs
  · exact Or.inl ⟨hs x hx, hs y hy⟩
  · exact Or.inr ⟨hs x hx, hs y hy⟩

theorem resolveAll_subset {ordered : List ℕ} {offs : List ℤ} {recs : List ℕ}
    (h : resolveAll ordered offs = some recs) : ∀ r ∈ recs, r ∈ ordered := by
  intro r hr
  obtain ⟨hmap, hsome⟩ := resolveAll_map h
  subst hmap
  obtain ⟨o, ho, hor⟩ := List.mem_map.mp hr
  obtain ⟨r', hr'⟩ := hsome o ho
  rw [hr'] at hor
  simp at hor
  subst hor
  exact pyGet_mem hr'

theorem resolveAll_length {ordered : List ℕ} {offs : List ℤ} {recs : List ℕ}
    (h : resolveAll ordered offs = some recs) : recs.length = offs.length :=
  ((resolveAll_rel h).length_eq).symm

/-- C2 amended: with a catalog of fewer than 10 rows, `recommend` can never
succeed — the 10 distinct offsets cannot all resolve to catalog positions. -/
theorem recommend_small_catalog_no_ok (f : Table) (cat : List Song)
    (bad : Bool) (stream : List ℕ) (out : RecOutput)
    (h : cat.length < 10) :
    (recommend f cat bad stream).1 ≠ RecResult.ok out := by
  intro heq
  simp only [recommend] at heq
  unfold recommendCore at heq
  split at heq
  · exact absurd heq (by simp)
  case _ offs hdl =>
    obtain ⟨hnd, hrange, hlen⟩ := drawLoop_start bad hdl
    unfold selectPhase at heq
    split at heq
    · exact absurd heq (by simp)
    case _ recs hres =>
      have hordnd : (rankedOrder (userAvg (normalize_data f))
          ((normalizeCatalog cat).map Song.features)).Nodup :=
        rankedOrder_nodup _ _
      have hsign : (∀ o ∈ offs, o < 0) ∨ (∀ o ∈ offs, 0 ≤ o) := by
        cases bad
        · refine Or.inr ?_
          intro o ho
          have := (hrange o ho).1
          simpa [loOf] using this
        · refine Or.inl ?_
          intro o ho
          have := (hrange o ho).2
          simpa [hiOf] using this
      have hrnd : recs.Nodup := resolveAll_nodup hordnd hres hnd hsign
      have hsub : ∀ r ∈ recs, r ∈ rankedOrder (userAvg (normalize_data f))
          ((normalizeCatalog cat).map Song.features) := resolveAll_subset hres
      have hrlen : recs.length = 10 := by
        rw [resolveAll_length hres, hlen]
      have hsp : recs.Subperm (rankedOrder (userAvg (normalize_data f))
          ((normalizeCatalog cat).map Song.features)) :=
        List.subperm_of_subset hrnd hsub
      have hle := hsp.length_le
      rw [hrlen, rankedOrder_length, normalizeCatalog_features_length] at hle
      omega

/-- C2 counterexample: on a 9-row catalog run in dissimilar mode with the raw
entropy stream `[0, 1, …, 9]`, `recommend` first performs all 10 random
draws (collecting offsets `-300 … -291`) and then fails with an
`IndexError`, not with a distinct `InsufficientCatalog` error. -/
theorem recommend_nine_rows_index_error :
    drawLoop (-300) 0 (List.range 10) []
        = some [-300, -299, -298, -297, -296, -295, -294, -293, -292, -291] ∧
    (recommend fW (catW 9) true (List.range 10)).1 = RecResult.err Err.indexError ∧
    Err.indexError ≠ Err.insufficientCatalog := by
  refine ⟨by with_unfolding_all rfl, by with_unfolding_all rfl, by simp⟩

theorem recommend_small_catalog_no_ok_witness :
    (catW 9).length < 10 ∧
    (recommend fW (catW 9) false []).1 ≠ RecResult.ok ⟨[], [], [], []⟩ :=
  ⟨by simp [catW],
   recommend_small_catalog_no_ok fW (catW 9) false [] ⟨[], [], [], []⟩
     (by simp [catW])⟩

theorem normalizeCatalog_length (cat : List Song) :
    (normalizeCatalog cat).length = cat.length := by
  simp [normalizeCatalog]

theorem songAt_normalizeCatalog (cat : List Song) (r : ℕ) (hr : r < cat.length) :
    (songAt (normalizeCatalog cat) r).name = (songAt cat r).name ∧
    (songAt (normalizeCatalog cat) r).id = (songAt cat r).id ∧
    (songAt (normalizeCatalog cat) r).artists = (songAt cat r).artists := by
  have hr' : r < (normalizeCatalog cat).length := by
    rw [normalizeCatalog_length]; exact hr
  unfold songAt
  rw [List.getD_eq_getElem _ _ hr', List.getD_eq_getElem _ _ hr]
  simp [normalizeCatalog]

theorem songAt_mem (cat : List Song) (r : ℕ) (hr : r < cat.length) :
    songAt cat r ∈ cat := by
  rw [songAt, List.getD_eq_getElem _ _ hr]
  exact List.getElem_mem hr

/-- C1 amended: the random offsets are drawn from the fixed ranges
`[-300, -1]` (dissimilar) and `[0, 99]` (similar) with no clamping to the
catalog length; consequently when the catalog has at least 300 rows
(dissimilar mode) resp. 100 rows (similar mode), and every song lists at
least one artist, every selected offset is in bounds and `recommend` never
raises an error. -/
theorem recommend_no_error_large_catalog (f : Table) (cat : List Song)
    (bad : Bool) (stream : List ℕ) (e : Err)
    (hn : (if bad then 300 else 100) ≤ cat.length)
    (hart : ∀ s ∈ cat, s.artists ≠ []) :
    (recommend f cat bad stream).1 ≠ RecResult.err e := by
  intro heq
  simp only [recommend] at heq
  unfold recommendCore at heq
  split at heq
  · exact absurd heq (by simp)
  case _ offs hdl =>
    obtain ⟨hnd, hrange, hlen⟩ := drawLoop_start bad hdl
    have hordlen : (rankedOrder (userAvg (normalize_data f))
        ((normalizeCatalog cat).map Song.features)).length = cat.length := by
      rw [rankedOrder_length, normalizeCatalog_features_length]
    obtain ⟨recs, hres⟩ := @resolveAll_some_of_forall
      (rankedOrder (userAvg (normalize_data f))
        ((normalizeCatalog cat).map Song.features)) offs
      (by
        intro o ho
        obtain ⟨hlo, hhi⟩ := hrange o ho
        apply pyGet_isSome
        · rw [hordlen]
          unfold posZ
          cases bad with
          | true =>
            simp [loOf] at hlo
            simp [hiOf] at hhi
            rw [if_pos hhi]
            simp at hn
            omega
          | false =>
            simp [loOf] at hlo
            rw [if_neg (by omega)]
            exact hlo
        · rw [hordlen]
          unfold posZ
          cases bad with
          | true =>
            simp [hiOf] at hhi
            rw [if_pos hhi]
            omega
          | false =>
            simp [loOf] at hlo
            simp [hiOf] at hhi
            rw [if_neg (by omega)]
            simp at hn
            omega)
    have hbound : ∀ r ∈ recs, r < cat.length := by
      intro r hr
      have hmem := resolveAll_subset hres r hr
      have := rankedOrder_mem_lt _ _ hmem
      rwa [normalizeCatalog_features_length] at this
    have hsongs := @songsAt_some_of_forall (normalizeCatalog cat) recs
      (by intro r hr; rw [normalizeCatalog_length]; exact hbound r hr)
    have hpa := @primaryArtists_some_of_forall
      (recs.map (songAt (normalizeCatalog cat)))
      (by
        intro s hs
        obtain ⟨r, hr, hsr⟩ := List.mem_map.mp hs
        have hrc := hbound r hr
        have hpres := (songAt_normalizeCatalog cat r hrc).2.2
        rw [← hsr, hpres]
        exact hart _ (songAt_mem cat r hrc))
    unfold selectPhase at heq
    simp only [hres, hsongs, hpa] at heq
    simp at heq

/-- C1 counterexample: the catalog `catW 10` has 10 rows, yet in dissimilar
mode with raw entropy `[0, …, 9]` the selected offset `-300` falls outside
the 10-element `RankedOrder` and the run fails with an `IndexError`. -/
theorem recommend_ten_rows_offset_out_of_bounds :
    (catW 10).length = 10 ∧
    (recommend fW (catW 10) true (List.range 10)).1 = RecResult.err Err.indexError := by
  refine ⟨by simp [catW], by with_unfolding_all rfl⟩

theorem recommend_no_error_large_catalog_witness :
    ((if false then 300 else 100 : ℕ) ≤ (catW 100).length ∧
      (∀ s ∈ catW 100, s.artists ≠ [])) ∧
    (recommend fW (catW 100) false []).1 ≠ RecResult.err Err.indexError :=
  ⟨⟨by simp [catW],
    by
      intro s hs
      simp only [catW, List.mem_map] at hs
      obtain ⟨k, _, hk⟩ := hs
      rw [← hk]
      simp [songW]⟩,
   recommend_no_error_large_catalog fW (catW 100) false [] Err.indexError
     (by simp [catW])
     (by
       intro s hs
       simp only [catW, List.mem_map] at hs
       obtain ⟨k, _, hk⟩ := hs
       rw [← hk]
       simp [songW])⟩

/-- C6 amended: `recommend` has no `InsufficientPoolSize` failure path at
all — its draw pools are the fixed ranges `[-300, -1]` and `[0, 99]`, and the
only error it can raise is an `IndexError` during lookup. -/
theorem recommend_never_pool_error (f : Table) (cat : List Song)
    (bad : Bool) (stream : List ℕ) :
    (recommend f cat bad stream).1 ≠ RecResult.err Err.insufficientPoolSize := by
  intro heq
  simp only [recommend] at heq
  unfold recommendCore at heq
  split at heq
  · simp at heq
  case _ offs hdl =>
    unfold selectPhase at heq
    split at heq
    · simp at heq
    case _ recs hres =>
      split at heq
      · simp at heq
      case _ rows hrows =>
        split at heq
        · simp at heq
        case _ arts harts => simp at heq

/-- C6 counterexample: with a 9-row catalog (whose clamped selection region
would have fewer than 10 positions) and an adversarial entropy stream that
repeats the same value 60 times, the retry-on-duplicate loop is still running
after 60 draws — no `InsufficientPoolSize` error is ever raised. -/
theorem recommend_retry_loop_unbounded :
    (catW 9).length < 10 ∧
    (recommend fW (catW 9) true (List.replicate 60 0)).1 = RecResult.running ∧
    (RecResult.running : RecResult RecOutput) ≠
      RecResult.err Err.insufficientPoolSize := by
  refine ⟨by simp [catW], by with_unfolding_all rfl, by simp⟩

theorem orderedOf_def (f : Table) (cat : List Song) :
    rankedOrder (userAvg (normalize_data f)) ((normalizeCatalog cat).map Song.features)
      = orderedOf f cat := rfl

theorem forallTwoMemRight {α β : Type} {R : α → β → Prop} :
    ∀ {l₁ : List α} {l₂ : List β}, List.Forall₂ R l₁ l₂ →
      ∀ b ∈ l₂, ∃ a ∈ l₁, R a b := by
  intro l₁ l₂ h
  induction h with
  | nil => intro b hb; simp at hb
  | cons hr _ ih =>
    intro b hb
    rcases List.mem_cons.mp hb with hb | hb
    · exact ⟨_, by simp, hb ▸ hr⟩
    · obtain ⟨a, ha, hab⟩ := ih b hb
      exact ⟨a, by simp [ha], hab⟩

/-- C4: every successful selection returns three parallel sequences of length
10 (names, ids, primary artists), all referring to 10 distinct catalog
indices `out.recs`, listed in the order the random draws were made; in
dissimilar mode every selected index sits in the worst-ranked 300 positions
of the ranking, in similar mode in the best-ranked 100 positions. -/
theorem recommend_selection_shape (f : Table) (cat : List Song) (bad : Bool)
    (stream : List ℕ) (out : RecOutput)
    (heq : (recommend f cat bad stream).1 = RecResult.ok out) :
    out.names.length = 10 ∧ out.ids.length = 10 ∧ out.artists.length = 10 ∧
    out.recs.Nodup ∧ out.recs.length = 10 ∧
    (∀ r ∈ out.recs, r < cat.length) ∧
    out.names = out.recs.map (fun r => (songAt cat r).name) ∧
    out.ids = out.recs.map (fun r => (songAt cat r).id) ∧
    out.artists = out.recs.map (fun r => (songAt cat r).artists.headD "") ∧
    (∃ offs, drawLoop (loOf bad) (hiOf bad) stream [] = some offs ∧
       List.Forall₂ (fun o r => pyGet (orderedOf f cat) o = some r) offs out.recs) ∧
    (∀ r ∈ out.recs, ∃ p, (orderedOf f cat).get? p = some r ∧
       (if bad then cat.length - 300 ≤ p else p < 100)) := by
  simp only [recommend] at heq
  unfold recommendCore at heq
  split at heq
  · exact absurd heq (by simp)
  case _ offs hdl =>
    obtain ⟨hnd, hrange, hlen⟩ := drawLoop_start bad hdl
    unfold selectPhase at heq
    split at heq
    · exact absurd heq (by simp)
    case _ recs hres =>
      split at heq
      · exact absurd heq (by simp)
      case _ rows hrows =>
        split at heq
        · exact absurd heq (by simp)
        case _ arts harts =>
          rw [orderedOf_def f cat] at hres
          simp only [RecResult.ok.injEq] at heq
          obtain ⟨hbig, hmap⟩ := songsAt_bounds hrows
          have hbound : ∀ r ∈ recs, r < cat.length := by
            intro r hr
            have := hbig r hr
            rwa [normalizeCatalog_length] at this
          obtain ⟨hartsmap, _⟩ := primaryArtists_eq harts
          have hrel := resolveAll_rel hres
          have hsign : (∀ o ∈ offs, o < 0) ∨ (∀ o ∈ offs, 0 ≤ o) := by
            cases bad
            · refine Or.inr fun o ho => ?_
              have := (hrange o ho).1
              simpa [loOf] using this
            · refine Or.inl fun o ho => ?_
              have := (hrange o ho).2
              simpa [hiOf] using this
          have hrnd : recs.Nodup :=
            resolveAll_nodup (rankedOrder_nodup _ _) hres hnd hsign
          have hrlen : recs.length = 10 := by
            rw [resolveAll_length hres, hlen]
          have hordlen : (orderedOf f cat).length = cat.length := by
            unfold orderedOf
            rw [rankedOrder_length, normalizeCatalog_features_length]
          subst heq
          refine ⟨?_, ?_, ?_, hrnd, hrlen, hbound, ?_, ?_, ?_, ?_, ?_⟩
          · show (rows.map Song.name).length = 10
            simp [hmap, hrlen]
          · show (rows.map Song.id).length = 10
            simp [hmap, hrlen]
          · show arts.length = 10
            rw [hartsmap]
            simp [hmap, hrlen]
          · show rows.map Song.name = recs.map (fun r => (songAt cat r).name)
            rw [hmap, List.map_map]
            refine List.map_congr_left ?_
            intro r hr
            exact (songAt_normalizeCatalog cat r (hbound r hr)).1
          · show rows.map Song.id = recs.map (fun r => (songAt cat r).id)
            rw [hmap, List.map_map]
            refine List.map_congr_left ?_
            intro r hr
            exact (songAt_normalizeCatalog cat r (hbound r hr)).2.1
          · show arts = recs.map (fun r => (songAt cat r).artists.headD "")
            rw [hartsmap, hmap, List.map_map]
            refine List.map_congr_left ?_
            intro r hr
            simp only [Function.comp]
            rw [(songAt_normalizeCatalog cat r (hbound r hr)).2.2]
          · exact ⟨offs, hdl, hrel⟩
          · intro r hr
            obtain ⟨o, ho, hor⟩ := forallTwoMemRight hrel r hr
            obtain ⟨h0, hplt, hpget⟩ := pyGet_pos hor
            rw [hordlen] at hplt
            refine ⟨(posZ (orderedOf f cat).length o).toNat, hpget, ?_⟩
            obtain ⟨hlo, hhi⟩ := hrange o ho
            cases bad with
            | true =>
              rw [if_pos (show true = true from rfl)]
              simp [loOf] at hlo
              simp [hiOf] at hhi
              unfold posZ at h0 hplt ⊢
              rw [if_pos hhi] at h0 ⊢
              rw [hordlen]
              omega
            | false =>
              rw [if_neg (show ¬ false = true from by simp)]
              simp [loOf] at hlo
              simp [hiOf] at hhi
              unfold posZ at h0 hplt ⊢
              rw [if_neg (by omega)]
              omega

/-- Concrete successful output of
`recommend fW (catW 10) false (List.range 10)`. -/
def outW : RecOutput := ⟨wordsW, wordsW, wordsW, [0, 1, 2, 3, 4, 5, 6, 7, 8, 9]⟩

theorem recommend_selection_shape_witness :
    (recommend fW (catW 10) false (List.range 10)).1 = RecResult.ok outW ∧
    (outW.names.length = 10 ∧ outW.ids.length = 10 ∧ outW.artists.length = 10 ∧
     outW.recs.Nodup ∧ outW.recs.length = 10 ∧
     (∀ r ∈ outW.recs, r < (catW 10).length) ∧
     outW.names = outW.recs.map (fun r => (songAt (catW 10) r).name) ∧
     outW.ids = outW.recs.map (fun r => (songAt (catW 10) r).id) ∧
     outW.artists = outW.recs.map (fun r => (songAt (catW 10) r).artists.headD "") ∧
     (∃ offs, drawLoop (loOf false) (hiOf false) (List.range 10) [] = some offs ∧
        List.Forall₂ (fun o r => pyGet (orderedOf fW (catW 10)) o = some r)
          offs outW.recs) ∧
     (∀ r ∈ outW.recs, ∃ p, (orderedOf fW (catW 10)).get? p = some r ∧
        (if false then (catW 10).length - 300 ≤ p else p < 100))) :=
  ⟨by with_unfolding_all rfl,
   recommend_selection_shape fW (catW 10) false (List.range 10) outW
     (by with_unfolding_all rfl)⟩

/-- C9: `recommend` normalizes both dataframe arguments in place before
ranking (the caller-visible final tables are exactly the normalized ones,
whatever the selection outcome), and normalization only rewrites the 12
feature columns: `id`, `name` and `artists` are untouched, while the feature
columns carry exactly the values `normalize_data` produces for the catalog's
feature table. -/
theorem recommend_mutates_inputs (f : Table) (cat : List Song) (bad : Bool)
    (stream : List ℕ) :
    (recommend f cat bad stream).2 = (normalize_data f, normalizeCatalog cat) ∧
    (normalizeCatalog cat).map Song.id = cat.map Song.id ∧
    (normalizeCatalog cat).map Song.name = cat.map Song.name ∧
    (normalizeCatalog cat).map Song.artists = cat.map Song.artists ∧
    (normalizeCatalog cat).map Song.features = normalize_data (cat.map Song.features) := by
  refine ⟨rfl, ?_, ?_, ?_, ?_⟩
  · rw [normalizeCatalog, List.map_map]
    exact List.map_congr_left fun s _ => rfl
  · rw [normalizeCatalog, List.map_map]
    exact List.map_congr_left fun s _ => rfl
  · rw [normalizeCatalog, List.map_map]
    exact List.map_congr_left fun s _ => rfl
  · rw [normalizeCatalog, List.map_map, normalize_data, List.map_map]
    exact List.map_congr_left fun s _ => rfl

/-! ### Strings: Python `lower`, `title`, `split` (ASCII model) and the
playlist namer `choose_name` -/

/-- ASCII case table: uppercase letter paired with its lowercase form.
Python's `str.lower`/`str.upper`/`str.title` are modelled on ASCII letters. -/
def caseTable : List (Char × Char) :=
  [('A', 'a'), ('B', 'b'), ('C', 'c'), ('D', 'd'), ('E', 'e'), ('F', 'f'),
   ('G', 'g'), ('H', 'h'), ('I', 'i'), ('J', 'j'), ('K', 'k'), ('L', 'l'),
   ('M', 'm'), ('N', 'n'), ('O', 'o'), ('P', 'p'), ('Q', 'q'), ('R', 'r'),
   ('S', 's'), ('T', 't'), ('U', 'u'), ('V', 'v'), ('W', 'w'), ('X', 'x'),
   ('Y', 'y'), ('Z', 'z')]

/-- Lowercase a character (identity outside `A`-`Z`). -/
def lowChar (c : Char) : Char :=
  ((caseTable.find? (fun q => q.1 == c)).map Prod.snd).getD c

/-- Uppercase a character (identity outside `a`-`z`). -/
def upChar (c : Char) : Char :=
  ((caseTable.find? (fun q => q.2 == c)).map Prod.fst).getD c

/-- A cased (ASCII-alphabetic) character, as used by `str.title` to decide
word boundaries. -/
def casedChar (c : Char) : Bool :=
  ('A' ≤ c && c ≤ 'Z') || ('a' ≤ c && c ≤ 'z')

theorem lowChar_upChar (c : Char) : lowChar (upChar c) = lowChar c := by
  cases hfind : caseTable.find? (fun q => q.2 == c) with
  | none =>
    have h1 : upChar c = c := by unfold upChar; rw [hfind]; rfl
    rw [h1]
  | some q =>
    have h1 : upChar c = q.1 := by unfold upChar; rw [hfind]; rfl
    have hp := List.find?_some hfind
    simp only [beq_iff_eq] at hp
    have hmem : q ∈ caseTable := List.mem_of_find?_eq_some hfind
    rw [h1, ← hp]
    fin_cases hmem <;> decide

theorem lowChar_lowChar (c : Char) : lowChar (lowChar c) = lowChar c := by
  cases hfind : caseTable.find? (fun q => q.1 == c) with
  | none =>
    have h1 : lowChar c = c := by unfold lowChar; rw [hfind]; rfl
    rw [h1]
    exact h1
  | some q =>
    have h1 : lowChar c = q.2 := by unfold lowChar; rw [hfind]; rfl
    have hmem : q ∈ caseTable := List.mem_of_find?_eq_some hfind
    rw [h1]
    fin_cases hmem <;> decide

/-- Python `str.lower` (ASCII model). -/
def pyLower (s : String) : String := String.mk (s.toList.map lowChar)

/-- Python `str.title` character-by-character: a cased character is
uppercased when the previous character is uncased, lowercased otherwise;
`prev` records whether the previous character was cased. -/
def titleChars (prev : Bool) : List Char → List Char
  | [] => []
  | c :: cs =>
    if casedChar c then
      (if prev then lowChar c else upChar c) :: titleChars true cs
    else c :: titleChars false cs

/-- Python `str.title` (ASCII model). -/
def pyTitle (s : String) : String := String.mk (titleChars false s.toList)

theorem titleChars_map_lowChar (cs : List Char) :
    ∀ prev, (titleChars prev cs).map lowChar = cs.map lowChar := by
  induction cs with
  | nil => intro prev; rfl
  | cons c cs ih =>
    intro prev
    unfold titleChars
    by_cases hc : casedChar c
    · rw [if_pos hc]
      by_cases hp : prev
      · simp only [if_pos hp, List.map_cons, lowChar_lowChar, ih]
      · simp only [if_neg hp, List.map_cons, lowChar_upChar, ih]
    · rw [if_neg hc]
      simp only [List.map_cons, ih]

theorem pyLower_pyTitle (s : String) : pyLower (pyTitle s) = pyLower s := by
  unfold pyLower pyTitle
  show String.mk ((titleChars false s.toList).map lowChar) = _
  rw [titleChars_map_lowChar]

/-- Python `str.split()` with no separator: split on runs of whitespace,
dropping empty fragments.  `acc` is the (reversed) current word. -/
def splitWordsAux : List Char → List Char → List String
  | [], [] => []
  | [], acc => [String.mk acc.reverse]
  | c :: cs, acc =>
    if c.isWhitespace then
      if acc.isEmpty then splitWordsAux cs []
      else String.mk acc.reverse :: splitWordsAux cs []
    else splitWordsAux cs (c :: acc)

/-- Python `s.split()`. -/
def pySplit (s : String) : List String := splitWordsAux s.toList []

/-- The conjunctions rejected at the borders of a generated name. -/
def conjs : List String := ["and", "or", "but"]

/-- The rejection test of `choose_name`:
`play_name.lower().startswith(tuple(conjs)) or play_name.lower().endswith(tuple(conjs))`.
Note these are string prefix/suffix tests, not word tests. -/
def conjEdge (nm : String) : Bool :=
  conjs.any (fun c => c.toList.isPrefixOf (pyLower nm).toList) ||
  conjs.any (fun c => c.toList.isSuffixOf (pyLower nm).toList)

theorem conjEdge_pyTitle (nm : String) : conjEdge (pyTitle nm) = conjEdge nm := by
  unfold conjEdge
  rw [show (pyLower (pyTitle nm)).toList = (pyLower nm).toList from
    congrArg String.toList (pyLower_pyTitle nm)]

/-- Model of `random.sample(words, k=2)` followed by `" ".join(...)`: two
distinct positions `i ≠ j` of the word list are selected from two raw entropy
values, and the corresponding words are joined by a single space. -/
def sampleTwo (ws : List String) (r1 r2 : ℕ) : String :=
  let i := r1 % ws.length
  let j0 := r2 % (ws.length - 1)
  let j := if i ≤ j0 then j0 + 1 else j0
  ws.getD i "" ++ " " ++ ws.getD j ""

/-- The inner rejection loop of `choose_name` for phrases of more than 4
words: sample a 2-word name, re-sample while it starts or ends with a
conjunction, and return it title-cased.  Each iteration consumes one entropy
pair; `running` models exhaustion of the finite entropy stream. -/
def sampleLoop (ws : List String) : List (ℕ × ℕ) → RecResult String
  | [] => RecResult.running
  | (r1, r2) :: rest =>
    let nm := sampleTwo ws r1 r2
    if conjEdge nm then sampleLoop ws rest
    else RecResult.ok (pyTitle nm)

/-- The acceptance loop of `choose_name`:
`while word_length < 3: playlist = random.choice(noun_chunks); ...`, then the
post-processing split on the accepted phrase's word count. -/
def chooseLoop (chunks : List String) : List ℕ → List (ℕ × ℕ) → RecResult String
  | [], _ => RecResult.running
  | r :: rest, pairs =>
    let p := chunks.getD (r % chunks.length) ""
    if (pySplit p).length < 3 then chooseLoop chunks rest pairs
    else if 4 < (pySplit p).length then sampleLoop (pySplit p) pairs
    else RecResult.ok (pyTitle p)

/-- Embedding of `choose_name(noun_chunks)`.  `random.choice` on an empty
sequence raises `IndexError` on the loop's first iteration, before any
entropy is consumed; `stream` feeds the phrase-acceptance draws and `pairs`
the 2-word sampling draws. -/
def choose_name (chunks : List String) (stream : List ℕ)
    (pairs : List (ℕ × ℕ)) : RecResult String :=
  if chunks.isEmpty then RecResult.err Err.indexError
  else chooseLoop chunks stream pairs

/-- Cleaning step of `generate_noun_chunks`:
`lyric.replace("\n", " ")`. -/
def replaceNl (s : String) : String :=
  String.mk (s.toList.map (fun c => if c = '\n' then ' ' else c))

/-- Cleaning step of `generate_noun_chunks`: `.strip()`. -/
def pyStrip (s : String) : String :=
  String.mk (((s.toList.dropWhile Char.isWhitespace).reverse.dropWhile
    Char.isWhitespace).reverse)

/-- Embedding of `generate_noun_chunks(lyrics_list)`: clean each lyric, run
the external noun-phrase segmenter `seg` (the spaCy `noun_chunks` capability,
passed as a parameter) over each cleaned lyric, and flatten the results in
encounter order. -/
def generate_noun_chunks (seg : String → List String)
    (lyrics : List String) : List String :=
  ((lyrics.map (fun l => pyStrip (replaceNl l))).map seg).join

/-- C7 amended: an empty lyric corpus yields an empty candidate set, on which
`choose_name` fails immediately — with the `IndexError` that `random.choice`
raises on an empty sequence, not with a distinct `NoNamingCandidates`
error — and does not loop. -/
theorem choose_name_empty_corpus (seg : String → List String)
    (stream : List ℕ) (pairs : List (ℕ × ℕ)) :
    generate_noun_chunks seg [] = [] ∧
    choose_name (generate_noun_chunks seg []) stream pairs
      = RecResult.err Err.indexError :=
  ⟨rfl, rfl⟩

/-- C7 counterexample: on the empty candidate set (with entropy available),
`choose_name` returns an `IndexError`, which is not the distinct
`NoNamingCandidates` error the claim requires. -/
theorem choose_name_empty_not_naming_error :
    choose_name [] [0] [(0, 0)] = RecResult.err Err.indexError ∧
    (RecResult.err Err.indexError : RecResult String)
      ≠ RecResult.err Err.noNamingCandidates :=
  ⟨rfl, by simp⟩

/-- C10: if every candidate phrase has fewer than 3 whitespace-delimited
words (and the candidate set is non-empty), the acceptance loop of
`choose_name` never accepts: for every finite entropy stream the run is
still drawing — it neither returns nor fails. -/
theorem choose_name_short_phrases_loop (chunks : List String)
    (stream : List ℕ) (pairs : List (ℕ × ℕ))
    (hne : chunks ≠ []) (hshort : ∀ c ∈ chunks, (pySplit c).length < 3) :
    choose_name chunks stream pairs = RecResult.running := by
  unfold choose_name
  rw [if_neg (by simpa using hne)]
  induction stream with
  | nil => rfl
  | cons r rest ih =>
    simp only [chooseLoop]
    have hlt : r % chunks.length < chunks.length :=
      Nat.mod_lt _ (List.length_pos.mpr hne)
    have hp : chunks.getD (r % chunks.length) "" ∈ chunks := by
      rw [List.getD_eq_getElem _ _ hlt]
      exact List.getElem_mem hlt
    rw [if_pos (hshort _ hp)]
    exact ih

theorem choose_name_short_phrases_loop_witness :
    ((["a b"] : List String) ≠ [] ∧
      (∀ c ∈ (["a b"] : List String), (pySplit c).length < 3)) ∧
    choose_name ["a b"] [0, 1, 2] [] = RecResult.running :=
  ⟨⟨by simp, by intro c hc; simp at hc; subst hc; decide⟩,
   choose_name_short_phrases_loop ["a b"] [0, 1, 2] [] (by simp)
     (by intro c hc; simp at hc; subst hc; decide)⟩

theorem sampleLoop_ok {ws : List String} (h2 : 2 ≤ ws.length) :
    ∀ {pairs : List (ℕ × ℕ)} {nm : String},
      sampleLoop ws pairs = RecResult.ok nm →
      ∃ i j, i < ws.length ∧ j < ws.length ∧ i ≠ j ∧
        nm = pyTitle (ws.getD i "" ++ " " ++ ws.getD j "") ∧
        conjEdge nm = false := by
  intro pairs
  induction pairs with
  | nil => intro nm h; simp [sampleLoop] at h
  | cons pr rest ih =>
    intro nm h
    obtain ⟨r1, r2⟩ := pr
    unfold sampleLoop at h
    by_cases hc : conjEdge (sampleTwo ws r1 r2)
    · rw [if_pos hc] at h
      exact ih h
    · rw [if_neg hc] at h
      simp at h
      subst h
      have hc' : conjEdge (sampleTwo ws r1 r2) = false := by simpa using hc
      have hin : r1 % ws.length < ws.length := Nat.mod_lt _ (by omega)
      have hj0n : r2 % (ws.length - 1) < ws.length - 1 := Nat.mod_lt _ (by omega)
      have hknown : sampleTwo ws r1 r2
          = ws.getD (r1 % ws.length) "" ++ " " ++
            ws.getD (if r1 % ws.length ≤ r2 % (ws.length - 1)
              then r2 % (ws.length - 1) + 1 else r2 % (ws.length - 1)) "" := rfl
      by_cases hij : r1 % ws.length ≤ r2 % (ws.length - 1)
      · refine ⟨r1 % ws.length, r2 % (ws.length - 1) + 1, hin,
          by omega, by omega, ?_, ?_⟩
        · rw [hknown, if_pos hij]
        · rw [conjEdge_pyTitle]
          exact hc'
      · refine ⟨r1 % ws.length, r2 % (ws.length - 1), hin,
          by omega, by omega, ?_, ?_⟩
        · rw [hknown, if_neg hij]
        · rw [conjEdge_pyTitle]
          exact hc'

/-- C8: every returned playlist name comes from an accepted candidate phrase
of at least 3 words; when that phrase has more than 4 words the name is two
words taken from distinct positions of the phrase, joined by a single space
and title-cased, and it does not start or end (case-insensitively) with
"and", "or" or "but"; when the phrase has 3 or 4 words the name is the whole
phrase, unmodified except for title casing. -/
theorem choose_name_shape (chunks : List String) (stream : List ℕ)
    (pairs : List (ℕ × ℕ)) (nm : String)
    (h : choose_name chunks stream pairs = RecResult.ok nm) :
    ∃ p ∈ chunks, 3 ≤ (pySplit p).length ∧
      (4 < (pySplit p).length →
        ∃ i j, i < (pySplit p).length ∧ j < (pySplit p).length ∧ i ≠ j ∧
          nm = pyTitle ((pySplit p).getD i "" ++ " " ++ (pySplit p).getD j "") ∧
          conjEdge nm = false) ∧
      ((pySplit p).length ≤ 4 → nm = pyTitle p) := by
  unfold choose_name at h
  by_cases hemp : chunks.isEmpty
  · rw [if_pos hemp] at h
    simp at h
  · rw [if_neg hemp] at h
    have hne : chunks ≠ [] := by simpa using hemp
    induction stream with
    | nil => simp [chooseLoop] at h
    | cons r rest ih =>
      simp only [chooseLoop] at h
      have hlt : r % chunks.length < chunks.length :=
        Nat.mod_lt _ (List.length_pos.mpr hne)
      have hp : chunks.getD (r % chunks.length) "" ∈ chunks := by
        rw [List.getD_eq_getElem _ _ hlt]
        exact List.getElem_mem hlt
      by_cases h3 : (pySplit (chunks.getD (r % chunks.length) "")).length < 3
      · rw [if_pos h3] at h
        exact ih h
      · rw [if_neg h3] at h
        by_cases h4 : 4 < (pySplit (chunks.getD (r % chunks.length) "")).length
        · rw [if_pos h4] at h
          obtain ⟨i, j, hi, hj, hij, hnm, hconj⟩ := sampleLoop_ok (by omega) h
          exact ⟨_, hp, by omega,
            fun _ => ⟨i, j, hi, hj, hij, hnm, hconj⟩,
            fun hle => by omega⟩
        · rw [if_neg h4] at h
          simp only [RecResult.ok.injEq] at h
          exact ⟨_, hp, by omega, fun hgt => absurd hgt h4, fun _ => h.symm⟩

theorem choose_name_shape_witness :
    choose_name ["hello brave new world again"] [0] [(0, 0)]
      = RecResult.ok "Hello Brave" ∧
    (∃ p ∈ (["hello brave new world again"] : List String),
      3 ≤ (pySplit p).length ∧
      (4 < (pySplit p).length →
        ∃ i j, i < (pySplit p).length ∧ j < (pySplit p).length ∧ i ≠ j ∧
          "Hello Brave"
            = pyTitle ((pySplit p).getD i "" ++ " " ++ (pySplit p).getD j "") ∧
          conjEdge "Hello Brave" = false) ∧
      ((pySplit p).length ≤ 4 → "Hello Brave" = pyTitle p)) :=
  ⟨rfl,
   choose_name_shape ["hello brave new world again"] [0] [(0, 0)]
     "Hello Brave" rfl⟩

end Spotify
